import Mathlib

/-!
# Verification of the go-set container (`src/set.go`)

The repository implements a generic set `Set[V comparable]` backed by a Go
map `map[V]struct{}` guarded by an `RWMutex`.  We embed the container
shallowly: the map's key collection is a duplicate-free list (`m` with a
`Nodup` invariant, mirroring the uniqueness of map keys), and list order
stands for Go's unspecified map iteration order.  Locking is erased (the
embedding is sequential); each method body is translated statement by
statement from the source.  The Go zero value of `V` is `default` of an
`Inhabited` instance.  For the frame/aliasing properties of `Clone` we
additionally model a store of set objects addressed by references.
-/

/-- The `m map[V]struct{}` field of `Set[V]`: its keys as a duplicate-free
list (list order models Go's unspecified map iteration order). -/
structure GoSet (V : Type) [DecidableEq V] where
  m : List V
  nodup : m.Nodup

namespace GoSet

variable {V : Type} [DecidableEq V]

/-- Go map assignment `s.m[x] = struct{}{}`: the value is overwritten if the
key is present (membership unchanged), otherwise the key is added. -/
def mapAssign (m : List V) (x : V) : List V :=
  if x ∈ m then m else m ++ [x]

/-- Go builtin `delete(s.m, x)`: removes the key `x` if present. -/
def mapDelete (m : List V) (x : V) : List V :=
  m.filter (fun k => decide (k ≠ x))

theorem mem_mapAssign {m : List V} {x y : V} :
    y ∈ mapAssign m x ↔ y ∈ m ∨ y = x := by
  unfold mapAssign
  by_cases h : x ∈ m
  · simp only [if_pos h]
    constructor
    · exact Or.inl
    · rintro (him | rfl)
      · exact him
      · exact h
  · simp [if_neg h]

theorem mapAssign_nodup {m : List V} (h : m.Nodup) (x : V) :
    (mapAssign m x).Nodup := by
  unfold mapAssign
  by_cases hx : x ∈ m
  · simpa [if_pos hx] using h
  · rw [if_neg hx, List.nodup_append]
    exact ⟨h, List.nodup_singleton x,
      fun a ha hax => hx ((List.mem_singleton.mp hax) ▸ ha)⟩

theorem mem_mapDelete {m : List V} {x y : V} :
    y ∈ mapDelete m x ↔ y ∈ m ∧ y ≠ x := by
  simp [mapDelete]

theorem mapDelete_nodup {m : List V} (h : m.Nodup) (x : V) :
    (mapDelete m x).Nodup :=
  h.filter _

theorem foldl_mapAssign_nodup :
    ∀ (vs : List V) (m : List V), m.Nodup → (List.foldl mapAssign m vs).Nodup
  | [], _, h => h
  | _ :: vs, _, h => foldl_mapAssign_nodup vs _ (mapAssign_nodup h _)

theorem mem_foldl_mapAssign :
    ∀ (vs : List V) (m : List V) (y : V),
      y ∈ List.foldl mapAssign m vs ↔ y ∈ m ∨ y ∈ vs
  | [], m, y => by simp
  | x :: vs, m, y => by
    rw [List.foldl_cons, mem_foldl_mapAssign vs (mapAssign m x) y, mem_mapAssign]
    simp only [List.mem_cons]
    tauto

theorem foldl_mapDelete_nodup :
    ∀ (vs : List V) (m : List V), m.Nodup → (List.foldl mapDelete m vs).Nodup
  | [], _, h => h
  | _ :: vs, _, h => foldl_mapDelete_nodup vs _ (mapDelete_nodup h _)

theorem mem_foldl_mapDelete :
    ∀ (vs : List V) (m : List V) (y : V),
      y ∈ List.foldl mapDelete m vs ↔ y ∈ m ∧ y ∉ vs
  | [], m, y => by simp
  | x :: vs, m, y => by
    rw [List.foldl_cons, mem_foldl_mapDelete vs (mapDelete m x) y, mem_mapDelete]
    simp only [List.mem_cons]
    tauto

/-- `func (s *Set[V]) Insert(v ...V)`: `for _, x := range v { s.m[x] = struct{}{} }`. -/
def Insert (s : GoSet V) (v : List V) : GoSet V :=
  ⟨List.foldl mapAssign s.m v, foldl_mapAssign_nodup v s.m s.nodup⟩

/-- `func New[V comparable](v ...V) *Set[V]`: an empty map, then `s.Insert(v...)`. -/
def New (v : List V) : GoSet V :=
  Insert ⟨[], List.nodup_nil⟩ v

/-- `func (s *Set[V]) Delete(v ...V)`: `for _, x := range v { delete(s.m, x) }`. -/
def Delete (s : GoSet V) (v : List V) : GoSet V :=
  ⟨List.foldl mapDelete s.m v, foldl_mapDelete_nodup v s.m s.nodup⟩

/-- `func (s *Set[V]) Has(v V) bool`: `_, ok := s.m[v]; return ok`. -/
def Has (s : GoSet V) (v : V) : Bool :=
  decide (v ∈ s.m)

/-- `func (s *Set[V]) Len() int`: `return len(s.m)`. -/
def Len (s : GoSet V) : Nat :=
  s.m.length

/-- `func (s *Set[V]) HasAll(v ...V) bool`: returns false at the first
argument not contained in `s`, else true. -/
def HasAll (s : GoSet V) (v : List V) : Bool :=
  v.all fun x => s.Has x

/-- `func (s *Set[V]) HasAny(v ...V) bool`: returns true at the first
argument contained in `s`, else false. -/
def HasAny (s : GoSet V) (v : List V) : Bool :=
  v.any fun x => s.Has x

/-- `func (s *Set[V]) IsSuperset(t *Set[V]) bool`: `for k := range t.m { if
!s.Has(k) { return false } }; return true`. -/
def IsSuperset (s t : GoSet V) : Bool :=
  t.m.all fun k => s.Has k

/-- `func (s *Set[V]) Equal(t *Set[V]) bool`:
`return len(s.m) == len(t.m) && s.IsSuperset(t)`. -/
def Equal (s t : GoSet V) : Bool :=
  (s.m.length == t.m.length) && s.IsSuperset t

/-- `func (s *Set[V]) Values() []V`: the keys of `s.m` in iteration order. -/
def Values (s : GoSet V) : List V :=
  s.m

/-- `func (s *Set[V]) Clone() *Set[V]`: `t := New[V](); t.Insert(s.Values()...)`. -/
def Clone (s : GoSet V) : GoSet V :=
  Insert (New []) s.Values

/-- `func (s *Set[V]) Difference(t *Set[V]) *Set[V]`: `u := New[V](); for k :=
range s.m { if !t.Has(k) { u.Insert(k) } }; return u`. -/
def Difference (s t : GoSet V) : GoSet V :=
  List.foldl (fun u k => if t.Has k then u else u.Insert [k]) (New []) s.m

/-- `func (s *Set[V]) Intersection(t *Set[V]) *Set[V]`: picks `walk`, the
operand of smaller `Len` (the argument on ties), and `other`, the remaining
operand, then `u := New[V](); for k := range walk.m { if other.Has(k) {
u.Insert(k) } }; return u`. -/
def Intersection (s t : GoSet V) : GoSet V :=
  let wo : GoSet V × GoSet V := if s.Len < t.Len then (s, t) else (t, s)
  List.foldl (fun u k => if wo.2.Has k then u.Insert [k] else u) (New []) wo.1.m

/-- `func (s *Set[V]) Union(t *Set[V]) *Set[V]`: `u := s.Clone(); for k :=
range t.m { u.Insert(k) }; return u`. -/
def Union (s t : GoSet V) : GoSet V :=
  List.foldl (fun u k => u.Insert [k]) s.Clone t.m

/-- `func (s *Set[V]) PopAny() (v V, _ bool)`: deletes and returns the first
iterated key with flag true; on an empty map returns the zero value of `V`
and false. -/
def PopAny [Inhabited V] (s : GoSet V) : V × Bool × GoSet V :=
  match h : s.m with
  | [] => (default, false, s)
  | k :: rest => (k, true, ⟨rest, (List.nodup_cons.mp (h ▸ s.nodup)).2⟩)

theorem Has_eq_true_iff {s : GoSet V} {y : V} : s.Has y = true ↔ y ∈ s.m := by
  simp [Has]

theorem mem_Insert {s : GoSet V} {v : List V} {y : V} :
    y ∈ (s.Insert v).m ↔ y ∈ s.m ∨ y ∈ v :=
  mem_foldl_mapAssign v s.m y

theorem mem_Delete {s : GoSet V} {v : List V} {y : V} :
    y ∈ (s.Delete v).m ↔ y ∈ s.m ∧ y ∉ v :=
  mem_foldl_mapDelete v s.m y

theorem mem_New {v : List V} {y : V} : y ∈ (New v : GoSet V).m ↔ y ∈ v := by
  rw [New, mem_Insert]
  simp

theorem foldl_mapAssign_eq_append :
    ∀ (l acc : List V), l.Nodup → (∀ x ∈ l, x ∉ acc) →
      List.foldl mapAssign acc l = acc ++ l
  | [], acc, _, _ => by simp
  | x :: l, acc, hnd, hdisj => by
    have hx : x ∉ acc := hdisj x (List.mem_cons_self x l)
    rw [List.foldl_cons]
    rw [show mapAssign acc x = acc ++ [x] from if_neg hx]
    rw [foldl_mapAssign_eq_append l (acc ++ [x]) (List.nodup_cons.mp hnd).2 ?_]
    · simp
    · intro y hy
      simp only [List.mem_append, List.mem_singleton]
      rintro (hya | rfl)
      · exact hdisj y (List.mem_cons_of_mem x hy) hya
      · exact (List.nodup_cons.mp hnd).1 hy

theorem Clone_m (s : GoSet V) : s.Clone.m = s.m := by
  show List.foldl mapAssign (New ([] : List V)).m s.m = s.m
  rw [show (New ([] : List V)).m = ([] : List V) from rfl,
    foldl_mapAssign_eq_append s.m [] s.nodup (by simp)]
  simp

theorem IsSuperset_eq_true_iff {s t : GoSet V} :
    s.IsSuperset t = true ↔ ∀ x ∈ t.m, x ∈ s.m := by
  simp [IsSuperset, Has]

theorem Equal_eq_true_iff {s t : GoSet V} :
    s.Equal t = true ↔ ∀ x, x ∈ s.m ↔ x ∈ t.m := by
  unfold Equal
  rw [Bool.and_eq_true, beq_iff_eq, IsSuperset_eq_true_iff]
  constructor
  · rintro ⟨hlen, hsub⟩ x
    have hsp : List.Subperm t.m s.m := List.subperm_of_subset t.nodup hsub
    have hperm : List.Perm t.m s.m := hsp.perm_of_length_le (le_of_eq hlen)
    exact (hperm.mem_iff).symm
  · intro h
    have hperm : List.Perm s.m t.m :=
      (List.perm_ext_iff_of_nodup s.nodup t.nodup).mpr h
    exact ⟨hperm.length_eq, fun x hx => (h x).mpr hx⟩

theorem mem_foldl_diff (t : GoSet V) :
    ∀ (l : List V) (u : GoSet V) (y : V),
      y ∈ (List.foldl (fun u k => if t.Has k then u else u.Insert [k]) u l).m ↔
        y ∈ u.m ∨ (y ∈ l ∧ t.Has y = false)
  | [], u, y => by simp
  | x :: l, u, y => by
    rw [List.foldl_cons, mem_foldl_diff t l _ y]
    by_cases hx : t.Has x = true
    · rw [if_pos hx]
      simp only [List.mem_cons]
      constructor
      · rintro (h | ⟨hyl, hy⟩)
        · exact Or.inl h
        · exact Or.inr ⟨Or.inr hyl, hy⟩
      · rintro (h | ⟨rfl | hyl, hy⟩)
        · exact Or.inl h
        · rw [hx] at hy
          cases hy
        · exact Or.inr ⟨hyl, hy⟩
    · rw [if_neg hx]
      have hx' : t.Has x = false := Bool.not_eq_true _ ▸ hx
      simp only [mem_Insert, List.mem_cons, List.not_mem_nil, or_false]
      constructor
      · rintro ((h | rfl) | ⟨hyl, hy⟩)
        · exact Or.inl h
        · exact Or.inr ⟨Or.inl rfl, hx'⟩
        · exact Or.inr ⟨Or.inr hyl, hy⟩
      · rintro (h | ⟨rfl | hyl, hy⟩)
        · exact Or.inl (Or.inl h)
        · exact Or.inl (Or.inr rfl)
        · exact Or.inr ⟨hyl, hy⟩

theorem mem_foldl_inter (w : GoSet V) :
    ∀ (l : List V) (u : GoSet V) (y : V),
      y ∈ (List.foldl (fun u k => if w.Has k then u.Insert [k] else u) u l).m ↔
        y ∈ u.m ∨ (y ∈ l ∧ w.Has y = true)
  | [], u, y => by simp
  | x :: l, u, y => by
    rw [List.foldl_cons, mem_foldl_inter w l _ y]
    by_cases hx : w.Has x = true
    · rw [if_pos hx]
      simp only [mem_Insert, List.mem_cons, List.not_mem_nil, or_false]
      constructor
      · rintro ((h | rfl) | ⟨hyl, hy⟩)
        · exact Or.inl h
        · exact Or.inr ⟨Or.inl rfl, hx⟩
        · exact Or.inr ⟨Or.inr hyl, hy⟩
      · rintro (h | ⟨rfl | hyl, hy⟩)
        · exact Or.inl (Or.inl h)
        · exact Or.inl (Or.inr rfl)
        · exact Or.inr ⟨hyl, hy⟩
    · rw [if_neg hx]
      simp only [List.mem_cons]
      constructor
      · rintro (h | ⟨hyl, hy⟩)
        · exact Or.inl h
        · exact Or.inr ⟨Or.inr hyl, hy⟩
      · rintro (h | ⟨rfl | hyl, hy⟩)
        · exact Or.inl h
        · exact absurd hy hx
        · exact Or.inr ⟨hyl, hy⟩

theorem mem_foldl_single_insert :
    ∀ (l : List V) (u : GoSet V) (y : V),
      y ∈ (List.foldl (fun u k => u.Insert [k]) u l).m ↔ y ∈ u.m ∨ y ∈ l
  | [], u, y => by simp
  | x :: l, u, y => by
    rw [List.foldl_cons, mem_foldl_single_insert l _ y]
    simp only [mem_Insert, List.mem_cons, List.not_mem_nil, or_false]
    tauto

theorem mem_Difference {s t : GoSet V} {y : V} :
    y ∈ (s.Difference t).m ↔ y ∈ s.m ∧ y ∉ t.m := by
  unfold Difference
  rw [mem_foldl_diff]
  simp [mem_New, Has]

theorem mem_Intersection {s t : GoSet V} {y : V} :
    y ∈ (s.Intersection t).m ↔ y ∈ s.m ∧ y ∈ t.m := by
  unfold Intersection
  by_cases h : s.Len < t.Len
  · simp only [if_pos h]
    rw [mem_foldl_inter]
    simp [mem_New, Has]
  · simp only [if_neg h]
    rw [mem_foldl_inter]
    simp only [mem_New, Has, decide_eq_true_eq, List.not_mem_nil, false_or]
    exact ⟨fun ⟨a, b⟩ => ⟨b, a⟩, fun ⟨a, b⟩ => ⟨b, a⟩⟩

theorem mem_Union {s t : GoSet V} {y : V} :
    y ∈ (s.Union t).m ↔ y ∈ s.m ∨ y ∈ t.m := by
  unfold Union
  rw [mem_foldl_single_insert, Clone_m]

theorem PopAny_cases [Inhabited V] (s : GoSet V) :
    (s.PopAny.2.1 = true → s.m = s.PopAny.1 :: s.PopAny.2.2.m) ∧
    (s.PopAny.2.1 = false →
      s.PopAny.1 = default ∧ s.PopAny.2.2 = s ∧ s.m = []) := by
  unfold PopAny
  split
  · rename_i heq
    simp [heq]
  · rename_i k rest heq
    simp [heq]

theorem PopAny_true_m [Inhabited V] {s s' : GoSet V} {v : V}
    (hp : s.PopAny = (v, true, s')) : s.m = v :: s'.m := by
  have h := (PopAny_cases s).1
  rw [hp] at h
  exact h rfl

theorem PopAny_false_m [Inhabited V] {s s' : GoSet V} {v : V}
    (hp : s.PopAny = (v, false, s')) : v = default ∧ s' = s ∧ s.m = [] := by
  have h := (PopAny_cases s).2
  rw [hp] at h
  exact h rfl

/-- The caller loop of the C5 property: call `PopAny` repeatedly until its
found flag is false, collecting the returned values; also returns the final
state of the set. -/
def popLoop [Inhabited V] (s : GoSet V) : List V × GoSet V :=
  match hp : s.PopAny with
  | (v, true, s') =>
    have : s'.m.length < s.m.length := by
      rw [PopAny_true_m hp]
      simp
    let r := popLoop s'
    (v :: r.1, r.2)
  | (_, false, _) => ([], s)
termination_by s.m.length

theorem popLoop_eq [Inhabited V] :
    ∀ (n : Nat) (s : GoSet V), s.m.length ≤ n →
      (popLoop s).1 = s.m ∧ (popLoop s).2.m = [] := by
  intro n
  induction n with
  | zero =>
    intro s hs
    rw [popLoop]
    split
    · rename_i v s' hp
      rw [PopAny_true_m hp] at hs
      simp at hs
    · rename_i v s' hp
      obtain ⟨_, _, hm⟩ := PopAny_false_m hp
      simp [hm]
  | succ n ih =>
    intro s hs
    rw [popLoop]
    split
    · rename_i v s' hp
      have hm := PopAny_true_m hp
      have hlen : s'.m.length ≤ n := by
        rw [hm] at hs
        simpa using hs
      obtain ⟨h1, h2⟩ := ih s' hlen
      simp only [h1, h2, hm, and_self]
    · rename_i v s' hp
      obtain ⟨_, _, hm⟩ := PopAny_false_m hp
      simp [hm]

/-- The specification's naive intersection, stated from the spec's words so
the algorithm of `Intersection` can be compared with it: the set of values
present in both operands. -/
def specIntersection (s t : GoSet V) : GoSet V :=
  ⟨s.m.filter (fun k => decide (k ∈ t.m)), s.nodup.filter _⟩

/-- C1: `Equal(s, t)` returns true iff the member counts agree and every
member of `t` is a member of `s`; and that condition holds iff `s` and `t`
contain exactly the same members, so `Equal` decides set equality. -/
theorem Equal_decides_set_equality (s t : GoSet V) :
    (s.Equal t = true ↔
      (s.Len = t.Len ∧ ∀ x, t.Has x = true → s.Has x = true)) ∧
    ((s.Len = t.Len ∧ ∀ x, t.Has x = true → s.Has x = true) ↔
      (∀ x, s.Has x = t.Has x)) := by
  have h1 : s.Equal t = true ↔
      (s.Len = t.Len ∧ ∀ x, t.Has x = true → s.Has x = true) := by
    unfold Equal Len
    rw [Bool.and_eq_true, beq_iff_eq, IsSuperset_eq_true_iff]
    simp only [Has_eq_true_iff]
  refine ⟨h1, ?_⟩
  rw [← h1, Equal_eq_true_iff]
  simp [Has, decide_eq_decide]

/-- C2: the iterate-the-smaller algorithm of `Intersection` computes the
naive intersection: its result is `Equal` to the set of values present in
both operands, and a value is a member of the result iff it is a member of
both operands. -/
theorem Intersection_refines_naive (s t : GoSet V) :
    (s.Intersection t).Equal (specIntersection s t) = true ∧
    ∀ x, (s.Intersection t).Has x = (s.Has x && t.Has x) := by
  constructor
  · rw [Equal_eq_true_iff]
    intro x
    rw [mem_Intersection]
    simp [specIntersection]
  · intro x
    show decide _ = (decide _ && decide _)
    by_cases hs : x ∈ s.m <;> by_cases ht : x ∈ t.m <;>
      simp [mem_Intersection, hs, ht]

/-- C3: `s.Difference(t)` contains exactly the values that are members of
`s` and not members of `t`. -/
theorem Difference_members (s t : GoSet V) :
    ∀ x, (s.Difference t).Has x = true ↔
      (s.Has x = true ∧ t.Has x = false) := by
  intro x
  rw [Has_eq_true_iff, mem_Difference]
  simp [Has]

/-- C4: `s.Union(t).Equal(t.Union(s))` returns true: `Union` is commutative
up to set equality. -/
theorem Union_comm (s t : GoSet V) : (s.Union t).Equal (t.Union s) = true := by
  rw [Equal_eq_true_iff]
  intro x
  rw [mem_Union, mem_Union]
  exact or_comm

/-- C5: calling `PopAny` until its found flag is false returns each original
member exactly once (no duplicates, none missing) and leaves the set
empty. -/
theorem popLoop_drains [Inhabited V] (s : GoSet V) :
    (popLoop s).1.Nodup ∧
    (∀ x, x ∈ (popLoop s).1 ↔ s.Has x = true) ∧
    (popLoop s).2.Len = 0 := by
  obtain ⟨h1, h2⟩ := popLoop_eq s.m.length s le_rfl
  rw [h1]
  refine ⟨s.nodup, fun x => Has_eq_true_iff.symm, ?_⟩
  simp [Len, h2]

/-- C7: inserting a value already present leaves `Len` unchanged and `Has`
of that value true. -/
theorem Insert_idempotent (s : GoSet V) (x : V) (h : s.Has x = true) :
    (s.Insert [x]).Len = s.Len ∧ (s.Insert [x]).Has x = true := by
  have hm : (s.Insert [x]).m = s.m := by
    show List.foldl mapAssign s.m [x] = s.m
    simp [mapAssign, Has_eq_true_iff.mp h]
  refine ⟨?_, ?_⟩
  · unfold Len
    rw [hm]
  · unfold Has
    rw [hm]
    exact h

/-- Witness for C7 at `s = New [1, 2]`, `x = 2`. -/
theorem Insert_idempotent_witness :
    ((New [1, 2] : GoSet Nat).Insert [2]).Len = (New [1, 2] : GoSet Nat).Len ∧
    ((New [1, 2] : GoSet Nat).Insert [2]).Has 2 = true :=
  Insert_idempotent (New [1, 2]) 2 (by decide)

/-- C8: the empty set has `Len` 0 and `PopAny` on it returns the zero value
with a false found flag; `HasAll` of no arguments is true and `HasAny` of no
arguments is false on every set. -/
theorem empty_and_vacuous_queries (V : Type) [DecidableEq V] [Inhabited V] :
    (New ([] : List V)).Len = 0 ∧
    (New ([] : List V)).PopAny.1 = default ∧
    (New ([] : List V)).PopAny.2.1 = false ∧
    (∀ s : GoSet V, s.HasAll [] = true) ∧
    (∀ s : GoSet V, s.HasAny [] = false) :=
  ⟨rfl, rfl, rfl, fun _ => rfl, fun _ => rfl⟩

/-- C10: `Insert` and `Delete` change membership only for the listed values;
`Insert` never removes a member and `Delete` never adds one. -/
theorem Insert_Delete_frame (s : GoSet V) (vs : List V) :
    (∀ x, x ∉ vs →
      ((s.Insert vs).Has x = s.Has x ∧ (s.Delete vs).Has x = s.Has x)) ∧
    (∀ y, s.Has y = true → (s.Insert vs).Has y = true) ∧
    (∀ y, (s.Delete vs).Has y = true → s.Has y = true) := by
  refine ⟨fun x hx => ⟨?_, ?_⟩, fun y hy => ?_, fun y hy => ?_⟩
  · show decide _ = decide _
    rw [decide_eq_decide, mem_Insert]
    exact or_iff_left hx
  · show decide _ = decide _
    rw [decide_eq_decide, mem_Delete]
    exact and_iff_left hx
  · exact Has_eq_true_iff.mpr (mem_Insert.mpr (Or.inl (Has_eq_true_iff.mp hy)))
  · exact Has_eq_true_iff.mpr (mem_Delete.mp (Has_eq_true_iff.mp hy)).1

end GoSet

/-- A store of `*Set[V]` objects: cell `i` holds the state of the `i`-th
allocated set, and a pointer is an index.  This models the heap just enough
to state the aliasing facts about `Clone`: the clone is a fresh cell, so
mutating it cannot touch the source cell. -/
abbrev Store (V : Type) [DecidableEq V] : Type :=
  List (GoSet V)

namespace Store

variable {V : Type} [DecidableEq V]

/-- Dereference the pointer `i` (an absent cell reads as an empty set). -/
def readRef (σ : Store V) (i : Nat) : GoSet V :=
  σ.getD i (GoSet.New [])

/-- `s.Clone()` through the pointer `i`: `New[V]()` allocates a fresh cell,
which is then filled by `Insert(s.Values()...)`; returns the new store and
the fresh pointer. -/
def cloneRef (σ : Store V) (i : Nat) : Store V × Nat :=
  (σ ++ [(readRef σ i).Clone], σ.length)

/-- `s.Insert(v...)` through the pointer `i`: updates cell `i` in place. -/
def insertRef (σ : Store V) (i : Nat) (v : List V) : Store V :=
  σ.set i ((readRef σ i).Insert v)

/-- `s.Delete(v...)` through the pointer `i`: updates cell `i` in place. -/
def deleteRef (σ : Store V) (i : Nat) (v : List V) : Store V :=
  σ.set i ((readRef σ i).Delete v)

theorem readRef_append_lt {σ : Store V} {c : GoSet V} {i : Nat}
    (h : i < σ.length) : readRef (σ ++ [c]) i = readRef σ i := by
  unfold readRef
  rw [List.getD_eq_getElem?_getD, List.getD_eq_getElem?_getD,
    List.getElem?_append_left h]

theorem readRef_append_self (σ : Store V) (c : GoSet V) :
    readRef (σ ++ [c]) σ.length = c := by
  unfold readRef
  rw [List.getD_eq_getElem?_getD, List.getElem?_append_right (le_refl _)]
  simp

theorem readRef_set_ne {σ : Store V} {j i : Nat} {s : GoSet V} (h : j ≠ i) :
    readRef (σ.set j s) i = readRef σ i := by
  unfold readRef
  rw [List.getD_eq_getElem?_getD, List.getD_eq_getElem?_getD,
    List.getElem?_set_ne h]

/-- C6: `s.Clone().Equal(s)` holds at the time of the call, and a subsequent
`Insert` or `Delete` on the clone (a fresh cell) leaves the source cell
untouched: its `Len` and every `Has` answer are unchanged. -/
theorem Clone_independent (σ : Store V) (i : Nat) (hi : i < σ.length)
    (vs ws : List V) :
    ((readRef (cloneRef σ i).1 (cloneRef σ i).2).Equal
      (readRef (cloneRef σ i).1 i) = true) ∧
    ((readRef (insertRef (cloneRef σ i).1 (cloneRef σ i).2 vs) i).Len =
      (readRef σ i).Len) ∧
    (∀ x, (readRef (insertRef (cloneRef σ i).1 (cloneRef σ i).2 vs) i).Has x =
      (readRef σ i).Has x) ∧
    ((readRef (deleteRef (cloneRef σ i).1 (cloneRef σ i).2 ws) i).Len =
      (readRef σ i).Len) ∧
    (∀ x, (readRef (deleteRef (cloneRef σ i).1 (cloneRef σ i).2 ws) i).Has x =
      (readRef σ i).Has x) := by
  have hne : σ.length ≠ i := ne_of_gt hi
  simp only [cloneRef, insertRef, deleteRef]
  rw [readRef_set_ne hne, readRef_set_ne hne, readRef_append_lt hi,
    readRef_append_self]
  refine ⟨?_, rfl, fun x => rfl, rfl, fun x => rfl⟩
  rw [GoSet.Equal_eq_true_iff]
  intro x
  rw [GoSet.Clone_m]

/-- Witness for C6 at the store holding the single set `{1, 2}`, cloned and
then mutated with `Insert [3]` and `Delete [1]`. -/
theorem Clone_independent_witness :
    ((readRef (cloneRef ([GoSet.New [1, 2]] : Store Nat) 0).1
        (cloneRef ([GoSet.New [1, 2]] : Store Nat) 0).2).Equal
      (readRef (cloneRef ([GoSet.New [1, 2]] : Store Nat) 0).1 0) = true) ∧
    ((readRef (insertRef (cloneRef ([GoSet.New [1, 2]] : Store Nat) 0).1
        (cloneRef ([GoSet.New [1, 2]] : Store Nat) 0).2 [3]) 0).Len =
      (readRef ([GoSet.New [1, 2]] : Store Nat) 0).Len) ∧
    (∀ x, (readRef (insertRef (cloneRef ([GoSet.New [1, 2]] : Store Nat) 0).1
        (cloneRef ([GoSet.New [1, 2]] : Store Nat) 0).2 [3]) 0).Has x =
      (readRef ([GoSet.New [1, 2]] : Store Nat) 0).Has x) ∧
    ((readRef (deleteRef (cloneRef ([GoSet.New [1, 2]] : Store Nat) 0).1
        (cloneRef ([GoSet.New [1, 2]] : Store Nat) 0).2 [1]) 0).Len =
      (readRef ([GoSet.New [1, 2]] : Store Nat) 0).Len) ∧
    (∀ x, (readRef (deleteRef (cloneRef ([GoSet.New [1, 2]] : Store Nat) 0).1
        (cloneRef ([GoSet.New [1, 2]] : Store Nat) 0).2 [1]) 0).Has x =
      (readRef ([GoSet.New [1, 2]] : Store Nat) 0).Has x) :=
  Clone_independent [GoSet.New [1, 2]] 0 (by decide) [3] [1]

end Store
